import Mathlib

/- Shallow embedding of the hierarchical publish/subscribe engine implemented in
`pyfitterbap/pubsub.py` (classes `_Topic` and `PubSub`, and the helper `_as_bool`).

Modelling conventions:
* Python strings are `List Char`; `str.split('/')`, `startswith`, `endswith` and
  the trailing-character strip loop of `_topic_find` are translated verbatim.
* Python's dynamically typed values are the inductive `Val`; Python `x is None`
  is `Val.isNone` and Python `==` is `pyEq` (note that in Python `True == 1`
  and `False == 0`, which `_as_bool` relies on).
* Callbacks are opaque identifiers (`Nat`).  Invoking a subscriber
  `subscriber(topic, value, retain)` is modelled by appending an `Event` record
  to the list of delivered notifications, so every operation returns the
  mutated tree together with the events it delivered, plus the exception it
  raised, if any (in Python the mutations performed before a `raise` persist,
  so errors are reported alongside the post-call state, not instead of it).
* The `_Topic` tree uses mutable parent back-references; in the functional
  translation each walk "node, then every ancestor up to the root" is obtained
  from the chain of nodes along the resolved path (`chainDown`), which is
  exactly the parent chain because children are only ever created by
  `_topic_find` descending from the root.
-/

set_option autoImplicit false

namespace Fbp

/-- Python strings, modelled as their list of characters. -/
abbrev Str := List Char

/-- Dynamically typed Python values, restricted to the kinds the pubsub module
manipulates: `None`, booleans, integers, strings and (metadata) dicts. -/
inductive Val where
  | none
  | bool (b : Bool)
  | int (n : Int)
  | str (s : Str)
  | dict (entries : List (Str × Val))

/-- Python `x is None` (identity test against the `None` singleton). -/
def Val.isNone : Val → Bool
  | .none => true
  | _ => false

mutual

/-- Python `==` on the values above: `None` equals only `None`, numbers and
booleans compare across kinds (`True == 1`, `False == 0`), strings compare by
content, dicts compare entrywise. -/
def pyEq : Val → Val → Bool
  | .none, .none => true
  | .bool a, .bool b => a == b
  | .bool a, .int n => (if a then (1 : Int) else 0) == n
  | .int n, .bool b => n == (if b then (1 : Int) else 0)
  | .int a, .int b => a == b
  | .str a, .str b => a == b
  | .dict a, .dict b => pyEqEntries a b
  | _, _ => false

/-- Entrywise Python `==` on dict entry lists. -/
def pyEqEntries : List (Str × Val) → List (Str × Val) → Bool
  | [], [] => true
  | (k, v) :: r, (k2, v2) :: r2 => k == k2 && pyEq v v2 && pyEqEntries r r2
  | _, _ => false

end

/-- `d.get(key)` on a metadata dict (first matching entry, like a Python dict
whose keys are unique). -/
def dictGet : List (Str × Val) → Str → Option Val
  | [], _ => .none
  | (k, v) :: r, key => if k = key then some v else dictGet r key

/-- Python `key in d` for a dict. -/
def dictHasKey (entries : List (Str × Val)) (key : Str) : Bool :=
  (dictGet entries key).isSome

/-- `_as_bool(x)` (pubsub.py lines 19-26): lower-case strings, then test
membership in the falsy list and the truthy list with Python `==`
(so Python `False`/`0` and `True`/`1` are accepted), otherwise raise
`ValueError`. -/
def as_bool (x : Val) : Except Str Bool :=
  let x := match x with
    | .str s => .str (s.map Char.toLower)
    | v => v
  if [Val.int 0, .str "no".toList, .str "off".toList, .str "disable".toList,
      .str "disabled".toList, .str "false".toList,
      .str "inactive".toList].any (fun e => pyEq x e) then
    .ok false
  else if [Val.int 1, .str "yes".toList, .str "on".toList, .str "enable".toList,
      .str "enabled".toList, .str "true".toList,
      .str "active".toList].any (fun e => pyEq x e) then
    .ok true
  else
    .error "Invalid boolean value".toList

/-- One node of the `_Topic` tree: full topic name (`_topic`), retained value
(`_value`), metadata (`meta`), insertion-ordered children dict, and the
insertion-ordered list of `(callback, forward)` subscriber pairs. -/
inductive Topic where
  | mk (name : Str) (value : Val) (meta : Val)
       (children : List (Str × Topic)) (subs : List (Nat × Bool))

def Topic.name : Topic → Str | .mk n _ _ _ _ => n
def Topic.value : Topic → Val | .mk _ v _ _ _ => v
def Topic.meta : Topic → Val | .mk _ _ m _ _ => m
def Topic.children : Topic → List (Str × Topic) | .mk _ _ _ c _ => c
def Topic.subs : Topic → List (Nat × Bool) | .mk _ _ _ _ s => s

/-- `_Topic.__init__`: fresh node with no value, no metadata, no children and
no subscribers. -/
def Topic.new (name : Str) : Topic := .mk name .none .none [] []

def Topic.setValue (x : Val) : Topic → Topic
  | .mk n _ m c s => .mk n x m c s

def Topic.setMeta (x : Val) : Topic → Topic
  | .mk n v _ c s => .mk n v x c s

def Topic.setSubs (l : List (Nat × Bool)) : Topic → Topic
  | .mk n v m c _ => .mk n v m c l

/-- `t.children.get(part)` on the insertion-ordered children dict. -/
def childGet : List (Str × Topic) → Str → Option Topic
  | [], _ => .none
  | (k, c) :: r, key => if k = key then some c else childGet r key

/-- Replace the child stored under `key` (used when descending through an
existing child whose subtree was rebuilt). -/
def childSet (key : Str) (c' : Topic) : List (Str × Topic) → List (Str × Topic)
  | [] => []
  | (k, c) :: r => if k = key then (k, c') :: childSet key c' r
                   else (k, c) :: childSet key c' r

/-- `'/'.join(parts)`. -/
def joinStr : List Str → Str
  | [] => []
  | [s] => s
  | s :: rest => s ++ '/' :: joinStr rest

/-- The trailing-character strip loop of `_topic_find` (lines 137-138):
`while len(topic) and topic[-1] in '/$?': topic = topic[:-1]`. -/
def stripTrail (s : Str) : Str :=
  (s.reverse.dropWhile (fun c => c == '/' || c == '$' || c == '?')).reverse

/-- Python `topic.split('/')` (always returns at least one part). -/
def splitSlash : Str → List Str
  | [] => [[]]
  | c :: rest =>
      if c = '/' then [] :: splitSlash rest
      else match splitSlash rest with
        | [] => [[c]]
        | p :: ps => (c :: p) :: ps

/-- The path segments `_topic_find` descends through for a topic string:
strip trailing `/$?` characters, then split on `/` unless empty
(lines 137-141). -/
def resolvedParts (topic : Str) : List Str :=
  let s := stripTrail topic
  if s = [] then [] else splitSlash s

/-- Follow an existing path of segments from a node; `none` when some segment
is missing (`_topic_find` with `create=False`). -/
def nodeAt : Topic → List Str → Option Topic
  | t, [] => some t
  | t, p :: ps =>
      match childGet t.children p with
      | some c => nodeAt c ps
      | .none => .none

/-- `_topic_find` with `create=True`: descend the path, creating every missing
node with name `'/'.join(parts_so_far)` (lines 142-153).  Returns the rebuilt
tree together with the node found at the end of the path. -/
def ensureFind (t : Topic) (sofar : List Str) : List Str → Topic × Topic
  | [] => (t, t)
  | p :: ps =>
      match childGet t.children p with
      | some c =>
          let r := ensureFind c (sofar ++ [p]) ps
          (match t with
           | .mk n v m cs ss => .mk n v m (childSet p r.1 cs) ss, r.2)
      | .none =>
          let fresh := Topic.new (joinStr (sofar ++ [p]))
          let r := ensureFind fresh (sofar ++ [p]) ps
          (match t with
           | .mk n v m cs ss => .mk n v m (cs ++ [(p, r.1)]) ss, r.2)

/-- Apply `f` to the node at an existing path, rebuilding the tree (models a
mutation of the node object returned by `_topic_find`). -/
def updateAt (t : Topic) : List Str → (Topic → Topic) → Topic
  | [], f => f t
  | p :: ps, f =>
      match childGet t.children p with
      | some c =>
          (match t with
           | .mk n v m cs ss => .mk n v m (childSet p (updateAt c ps f) cs) ss)
      | .none => t

/-- The chain of nodes reached while descending a path, root first, stopping at
the deepest existing node (`_topic_find_existing_base` reaches exactly the last
element; a node's parent chain is the reverse of this list). -/
def chainDown : Topic → List Str → List Topic
  | t, [] => [t]
  | t, p :: ps =>
      match childGet t.children p with
      | some c => t :: chainDown c ps
      | .none => [t]

/-- The subscriber lists seen by a notification walk that starts at the node
resolved by `parts` and follows parent references up to the root
(deepest node first). -/
def walkLevels (root : Topic) (parts : List Str) : List (List (Nat × Bool)) :=
  ((chainDown root parts).reverse).map Topic.subs

/-- One delivered notification `subscriber(topic, value, retain)`.  `retain`
is the raw Python argument (`None`, `True` or `False`); the synthetic replay
of retained values on subscribe passes no retain argument, recorded as
`Option.none`. -/
structure Event where
  cbk : Nat
  topic : Str
  value : Val
  retain : Option Bool

/-- The notifications of `_Topic.publish` (lines 69-77): at every level of the
walk, every subscriber except `src_cbk` receives `(name, x, retain)`. -/
def publishEvents (levels : List (List (Nat × Bool))) (name : Str) (x : Val)
    (retain : Option Bool) (src : Option Nat) : List Event :=
  levels.flatMap fun subs =>
    subs.flatMap fun s =>
      if some s.1 = src then [] else [⟨s.1, name, x, retain⟩]

/-- The notifications of `_Topic.forward` (lines 79-87): at every level of the
walk, every subscriber registered with a truthy `forward` flag and different
from `src_cbk` receives `(topic, value, retain)`; with `traverse_parent=False`
the walk is the single level `[t.subs]`. -/
def forwardEvents (levels : List (List (Nat × Bool))) (topic : Str) (value : Val)
    (retain : Option Bool) (src : Option Nat) : List Event :=
  levels.flatMap fun subs =>
    subs.flatMap fun s =>
      if some s.1 = src ∨ s.2 = false then [] else [⟨s.1, topic, value, retain⟩]

/- `PubSub._meta_send_all` (lines 170-176): pre-order walk of a subtree; at
every node carrying metadata, `forward(name + '$', meta, retain=False,
traverse_parent=True)` — delivered to the node's level and every ancestor
level.  `anc` is the list of subscriber lists of the node's strict ancestors,
deepest first. -/
mutual

/-- See the comment above: `_meta_send_all` at one node. -/
def metaSendAll (anc : List (List (Nat × Bool))) (src : Option Nat) :
    Topic → List Event
  | .mk name _ meta children subs =>
      (if meta.isNone then []
       else forwardEvents (subs :: anc) (name ++ ['$']) meta (some false) src) ++
      metaSendAllChildren (subs :: anc) src children

/-- Recursion of `_meta_send_all` over the children dict, in insertion order. -/
def metaSendAllChildren (anc : List (List (Nat × Bool))) (src : Option Nat) :
    List (Str × Topic) → List Event
  | [] => []
  | (_, c) :: rest => metaSendAll anc src c ++ metaSendAllChildren anc src rest

end

/- `_Topic._publish_new_subscriber` (lines 89-93): depth-first replay of
retained values to a new subscriber — all children first (insertion order),
then this node if its value is not `None`.  The callback is invoked as
`cbk(self._topic, self._value)`, without a retain argument. -/
mutual

/-- See the comment above: `_publish_new_subscriber` at one node. -/
def replayEvents (cbk : Nat) : Topic → List Event
  | .mk name value _ children _ =>
      replayEventsChildren cbk children ++
      (if value.isNone then [] else [⟨cbk, name, value, .none⟩])

/-- Recursion of `_publish_new_subscriber` over the children dict. -/
def replayEventsChildren (cbk : Nat) : List (Str × Topic) → List Event
  | [] => []
  | (_, c) :: rest => replayEvents cbk c ++ replayEventsChildren cbk rest

end

/-- Line 98, `cbk not in self._subscribers`: the list elements are
`(callback, forward)` tuples, and in Python a callable object never compares
equal to a tuple, so the membership test is always false and the guard never
prevents an append. -/
def cbkEqSubEntry (_cbk : Nat) (_entry : Nat × Bool) : Bool := false

/-- The mutation of `_Topic.subscribe` on the subscriber list (lines 98-99):
append `(cbk, forward)` unless the (always-false, see `cbkEqSubEntry`)
membership test succeeds. -/
def subscribeLocal (cbk : Nat) (forward : Bool) (t : Topic) : Topic :=
  if t.subs.any (cbkEqSubEntry cbk) then t
  else t.setSubs (t.subs ++ [(cbk, forward)])

/-- `_Topic.unsubscribe` (lines 103-109): remove every entry whose callback
equals `cbk`. -/
def unsubscribeLocal (cbk : Nat) (t : Topic) : Topic :=
  t.setSubs (t.subs.filter (fun s => s.1 ≠ cbk))

/-- `_Topic.publish` invoked on the node at `parts` (lines 62-77): with a
truthy `retain`, return early when the stored value compares `==` to `x`
(dedup: no mutation, no notification), otherwise store `x`; with a falsy
`retain`, clear the stored value to `None`.  Then walk from the node up
through every ancestor, notifying every subscriber except `src_cbk` with
`(node name, x, retain)`. -/
def publishValueAt (root : Topic) (parts : List Str) (x : Val)
    (retain : Option Bool) (src : Option Nat) : Topic × List Event :=
  match nodeAt root parts with
  | .none => (root, [])  -- callers resolve the path with create=True first
  | some n =>
      if retain = some true then
        if pyEq n.value x then (root, [])
        else
          let root2 := updateAt root parts (Topic.setValue x)
          (root2, publishEvents (walkLevels root2 parts) n.name x retain src)
      else
        let root2 := updateAt root parts (Topic.setValue Val.none)
        (root2, publishEvents (walkLevels root2 parts) n.name x retain src)

/-- The engine.  `nsp` models `_topic_prefix` (already normalised to a string:
`'' if topic_prefix is None else str(topic_prefix)`), `root` the `_root`
topic node. -/
structure PubSub where
  nsp : Str
  root : Topic

/-- `PubSub(topic_prefix)` with a fresh root node named `''`. -/
def PubSub.new (nsp : Str) : PubSub := ⟨nsp, Topic.new []⟩

/-- Result of a public engine operation: the engine after the call, the
notifications delivered (in order), and the exception raised, if any.  In
Python an exception propagates to the caller while the mutations already
performed persist, hence the post-call engine accompanies the error. -/
structure PRes where
  eng : PubSub
  evs : List Event
  err : Option Str

/-- The subscriber-list levels of the strict ancestors of the node at `parts`
(deepest ancestor first): the walk levels without the node's own level. -/
def ancLevels (root : Topic) (parts : List Str) : List (List (Nat × Bool)) :=
  (((chainDown root parts).dropLast).reverse).map Topic.subs

/-- `PubSub.publish` (lines 178-214), with its five-way dispatch on the topic
string:
* empty topic: `ValueError`, no mutation;
* `'$'`: `_meta_send_all` on the node of `_topic_prefix` (created if missing),
  then `_root.forward('$', None, retain)`;
* ends with `'/$'`: if the topic starts with the engine's prefix,
  `_meta_send_all` on the resolved subtree (created if missing), otherwise
  `forward` from the deepest existing base node with `traverse_parent=True`;
* ends with `'$'`: resolve `topic[:-1]` with create; inside the prefix a
  `None` value re-emits `t.value` when that is not `None` (the code forwards
  the retained value, not `t.meta`), a non-`None` value stores `t.meta` and
  forwards it; outside the prefix, always forward;
* ends with `'?'`: no-op;
* otherwise: ordinary value publish on the resolved node. -/
def PubSub.publish (e : PubSub) (topic : Str) (value : Val)
    (retain : Option Bool) (src : Option Nat) : PRes :=
  if topic = [] then
    ⟨e, [], some "Empty topic not allowed".toList⟩
  else if topic = ['$'] then
    let parts := resolvedParts e.nsp
    let r := ensureFind e.root [] parts
    let evs1 := metaSendAll (ancLevels r.1 parts) src r.2
    let evs2 := forwardEvents [r.1.subs] topic .none retain src
    ⟨⟨e.nsp, r.1⟩, evs1 ++ evs2, .none⟩
  else if ['/', '$'] <:+ topic then
    if e.nsp <+: topic then
      let parts := resolvedParts topic
      let r := ensureFind e.root [] parts
      ⟨⟨e.nsp, r.1⟩, metaSendAll (ancLevels r.1 parts) src r.2, .none⟩
    else
      let parts := resolvedParts topic
      ⟨e, forwardEvents (walkLevels e.root parts) topic .none retain src, .none⟩
  else if topic.getLast? = some '$' then
    let parts := resolvedParts topic.dropLast
    let r := ensureFind e.root [] parts
    if e.nsp <+: topic then
      if value.isNone then
        if r.2.value.isNone then ⟨⟨e.nsp, r.1⟩, [], .none⟩
        else
          ⟨⟨e.nsp, r.1⟩,
           forwardEvents (walkLevels r.1 parts) topic r.2.value (some true) src,
           .none⟩
      else
        let root2 := updateAt r.1 parts (Topic.setMeta value)
        ⟨⟨e.nsp, root2⟩,
         forwardEvents (walkLevels root2 parts) topic value (some true) src,
         .none⟩
    else
      ⟨⟨e.nsp, r.1⟩,
       forwardEvents (walkLevels r.1 parts) topic value (some true) src, .none⟩
  else if topic.getLast? = some '?' then
    ⟨e, [], .none⟩
  else
    let parts := resolvedParts topic
    let r := ensureFind e.root [] parts
    let pr := publishValueAt r.1 parts value retain src
    ⟨⟨e.nsp, pr.1⟩, pr.2, .none⟩

/-- `PubSub.meta` (lines 216-219): append `'$'` unless already present, then
publish the metadata. -/
def PubSub.meta (e : PubSub) (topic : Str) (m : Val) : PRes :=
  let topic := if topic.getLast? = some '$' then topic else topic ++ ['$']
  e.publish topic m .none .none

/-- `PubSub.get` (lines 221-231): resolve without creating; `KeyError` when
the topic does not exist, otherwise the node's retained value. -/
def PubSub.get (e : PubSub) (topic : Str) : Except Str Val :=
  match nodeAt e.root (resolvedParts topic) with
  | .none => .error "topic does not exist".toList
  | some t => .ok t.value

/-- The callback argument of `subscribe`/`create`: either a genuine callable
(identified by an opaque id) or a non-callable Python object. -/
inductive CbkArg where
  | fn (id : Nat)
  | obj (v : Val)

/-- `PubSub.subscribe` (lines 233-244) delegating to `_Topic.subscribe`
(lines 95-101): resolve with create (the node is created even when the
callback is rejected), raise `ValueError` for a non-callable, otherwise
append the subscriber and, unless `skip_retained` is truthy, replay the
retained values of the subtree. -/
def PubSub.subscribe (e : PubSub) (topic : Str) (cbk : CbkArg)
    (skipRetained : Option Bool) (forward : Option Bool) : PRes :=
  let parts := resolvedParts topic
  let r := ensureFind e.root [] parts
  match cbk with
  | .obj _ => ⟨⟨e.nsp, r.1⟩, [], some "subscribers must be callable".toList⟩
  | .fn id =>
      let root2 := updateAt r.1 parts (subscribeLocal id (forward.getD false))
      let evs := if skipRetained.getD false then []
                 else replayEvents id (subscribeLocal id (forward.getD false) r.2)
      ⟨⟨e.nsp, root2⟩, evs, .none⟩

/-- `PubSub.unsubscribe` (lines 246-253): resolve with create, remove every
matching subscriber entry. -/
def PubSub.unsubscribe (e : PubSub) (topic : Str) (cbk : Nat) : PRes :=
  let parts := resolvedParts topic
  let r := ensureFind e.root [] parts
  ⟨⟨e.nsp, updateAt r.1 parts (unsubscribeLocal cbk)⟩, [], .none⟩

/-- The `src_cbk` Python passes along (`subscriber == src_cbk` can only
succeed for a genuine callable). -/
def CbkArg.srcId : Option CbkArg → Option Nat
  | some (.fn id) => some id
  | _ => .none

/-- `PubSub.create` (lines 255-266): `ValueError` when the topic already
exists (checked before any mutation); otherwise create the node, store the
metadata, and — when the metadata is a dict carrying `'default'` — publish the
default value with the retain flag decoded by `_as_bool` from the `'retain'`
entry (default `0`); `_as_bool` may raise, after the node and metadata were
already stored.  Finally subscribe `subscriber_cbk` when given. -/
def PubSub.create (e : PubSub) (topic : Str) (m : Val)
    (subscriberCbk : Option CbkArg) (skipRetained : Option Bool)
    (forward : Option Bool) : PRes :=
  let parts := resolvedParts topic
  match nodeAt e.root parts with
  | some _ => ⟨e, [], some "Topic already exists".toList⟩
  | .none =>
      let r := ensureFind e.root [] parts
      let root2 := updateAt r.1 parts (Topic.setMeta m)
      let step : Topic × List Event × Option Str :=
        match m with
        | .dict entries =>
            if dictHasKey entries "default".toList then
              match as_bool ((dictGet entries "retain".toList).getD (.int 0)) with
              | .error msg => (root2, [], some msg)
              | .ok retain =>
                  let x := (dictGet entries "default".toList).getD .none
                  let pr := publishValueAt root2 parts x (some retain)
                    (CbkArg.srcId subscriberCbk)
                  (pr.1, pr.2, .none)
            else (root2, [], .none)
        | _ => (root2, [], .none)
      match step.2.2 with
      | some msg => ⟨⟨e.nsp, step.1⟩, step.2.1, some msg⟩
      | .none =>
          match subscriberCbk with
          | .none => ⟨⟨e.nsp, step.1⟩, step.2.1, .none⟩
          | some (.obj _) =>
              ⟨⟨e.nsp, step.1⟩, step.2.1,
               some "subscribers must be callable".toList⟩
          | some (.fn id) =>
              let root3 := updateAt step.1 parts
                (subscribeLocal id (forward.getD false))
              let node := (nodeAt step.1 parts).getD (Topic.new [])
              let evs2 := if skipRetained.getD false then []
                          else replayEvents id
                            (subscribeLocal id (forward.getD false) node)
              ⟨⟨e.nsp, root3⟩, step.2.1 ++ evs2, .none⟩

/-- The bridge-adapter relay (class `Device` in `comm/ui/main.py`, methods
`_subscribe_parent`/`_subscribe_device`): `rIn` is the relay callback
subscribed (with `forward=True`) on the engine that produced `evs`; every
event delivered to it whose topic starts with the bridge prefix is
republished on the other engine with the far-side relay `rOut` as the
excluded `src_cbk`, the prefix stripped from the topic. -/
def relaySweep (eB : PubSub) (rIn rOut : Nat) (pfx : Str) :
    List Event → PubSub × List Event
  | [] => (eB, [])
  | ev :: rest =>
      if ev.cbk = rIn ∧ pfx <+: ev.topic then
        let r := eB.publish (ev.topic.drop pfx.length) ev.value ev.retain
          (some rOut)
        let tail := relaySweep r.eng rIn rOut pfx rest
        (tail.1, r.evs ++ tail.2)
      else relaySweep eB rIn rOut pfx rest

/-- How many subscriptions of callback `c` a walk contains (counting every
level, with multiplicity). -/
def scount (c : Nat) (levels : List (List (Nat × Bool))) : Nat :=
  (levels.map (fun subs => (subs.filter (fun s => s.1 == c)).length)).sum

@[simp] theorem Topic.value_setValue (x : Val) (t : Topic) :
    (t.setValue x).value = x := by cases t; rfl

@[simp] theorem Topic.meta_setValue (x : Val) (t : Topic) :
    (t.setValue x).meta = t.meta := by cases t; rfl

@[simp] theorem Topic.name_setValue (x : Val) (t : Topic) :
    (t.setValue x).name = t.name := by cases t; rfl

@[simp] theorem Topic.subs_setValue (x : Val) (t : Topic) :
    (t.setValue x).subs = t.subs := by cases t; rfl

@[simp] theorem Topic.meta_setMeta (x : Val) (t : Topic) :
    (t.setMeta x).meta = x := by cases t; rfl

@[simp] theorem Topic.value_setMeta (x : Val) (t : Topic) :
    (t.setMeta x).value = t.value := by cases t; rfl

@[simp] theorem Topic.value_new (nm : Str) : (Topic.new nm).value = .none := rfl

@[simp] theorem Topic.meta_new (nm : Str) : (Topic.new nm).meta = .none := rfl

mutual

/-- Python `==` is reflexive on the modelled values. -/
theorem pyEq_refl : ∀ v : Val, pyEq v v = true
  | .none => rfl
  | .bool b => by simp [pyEq]
  | .int n => by simp [pyEq]
  | .str s => by simp [pyEq]
  | .dict es => by simp [pyEq, pyEqEntries_refl es]

/-- Entrywise reflexivity. -/
theorem pyEqEntries_refl : ∀ es : List (Str × Val), pyEqEntries es es = true
  | [] => rfl
  | (k, v) :: r => by simp [pyEqEntries, pyEq_refl v, pyEqEntries_refl r]

end

/-- Only `None` compares `==` to `None`. -/
theorem pyEq_none_iff (v : Val) : pyEq v .none = true ↔ v = .none := by
  cases v <;> simp [pyEq]

theorem childGet_childSet_self {l : List (Str × Topic)} {key : Str} {c : Topic}
    (c' : Topic) (h : childGet l key = some c) :
    childGet (childSet key c' l) key = some c' := by
  induction l with
  | nil => simp [childGet] at h
  | cons kv r ih =>
      obtain ⟨k, d⟩ := kv
      by_cases hk : k = key
      · simp [childGet, childSet, hk]
      · simp only [childGet, childSet, if_neg hk] at h ⊢
        exact ih h

theorem childGet_append_of_none {l : List (Str × Topic)} {key : Str}
    (c : Topic) (h : childGet l key = .none) :
    childGet (l ++ [(key, c)]) key = some c := by
  induction l with
  | nil => simp [childGet]
  | cons kv r ih =>
      obtain ⟨k, d⟩ := kv
      by_cases hk : k = key
      · simp [childGet, hk] at h
      · simp only [List.cons_append, childGet, if_neg hk] at h ⊢
        exact ih h

/-- `_topic_find(create=True)` then descending the same path finds exactly the
node it returned. -/
theorem nodeAt_ensureFind : ∀ (parts : List Str) (t : Topic) (sofar : List Str),
    nodeAt (ensureFind t sofar parts).1 parts = some (ensureFind t sofar parts).2
  | [], t, sofar => rfl
  | p :: ps, t, sofar => by
      cases t with
      | mk n v m cs ss =>
        cases h : childGet cs p with
        | some c =>
            have ih := nodeAt_ensureFind ps c (sofar ++ [p])
            simp only [ensureFind, Topic.children, h, nodeAt]
            rw [childGet_childSet_self _ h]
            exact ih
        | none =>
            have ih := nodeAt_ensureFind ps (Topic.new (joinStr (sofar ++ [p])))
              (sofar ++ [p])
            simp only [ensureFind, Topic.children, h, nodeAt]
            rw [childGet_append_of_none _ h]
            exact ih

/-- When the path already exists, `_topic_find(create=True)` returns the
existing node. -/
theorem ensureFind_snd_of_nodeAt : ∀ (parts : List Str) (t n : Topic)
    (sofar : List Str), nodeAt t parts = some n →
    (ensureFind t sofar parts).2 = n
  | [], t, n, sofar, h => by
      simp only [nodeAt, Option.some.injEq] at h
      simp [ensureFind, h]
  | p :: ps, t, n, sofar, h => by
      cases t with
      | mk nm v m cs ss =>
        simp only [nodeAt, Topic.children] at h
        cases hg : childGet cs p with
        | some c =>
            rw [hg] at h
            simp only [ensureFind, Topic.children, hg]
            exact ensureFind_snd_of_nodeAt ps c n (sofar ++ [p]) h
        | none => rw [hg] at h; exact absurd h (by simp)

/-- A node found below a freshly created node is itself freshly created. -/
theorem ensureFind_new_snd : ∀ (ps : List Str) (nm : Str) (sofar : List Str),
    ∃ nm2, (ensureFind (Topic.new nm) sofar ps).2 = Topic.new nm2
  | [], nm, sofar => ⟨nm, rfl⟩
  | p :: ps, nm, sofar => by
      simp only [ensureFind, Topic.new, Topic.children, childGet]
      exact ensureFind_new_snd ps (joinStr (sofar ++ [p])) (sofar ++ [p])

/-- When the path does not fully exist, `_topic_find(create=True)` returns a
freshly created node (no value, no metadata). -/
theorem ensureFind_snd_of_none : ∀ (parts : List Str) (t : Topic)
    (sofar : List Str), nodeAt t parts = .none →
    ∃ nm, (ensureFind t sofar parts).2 = Topic.new nm
  | [], t, sofar, h => by simp [nodeAt] at h
  | p :: ps, t, sofar, h => by
      cases t with
      | mk nm v m cs ss =>
        simp only [nodeAt, Topic.children] at h
        cases hg : childGet cs p with
        | some c =>
            rw [hg] at h
            simp only [ensureFind, Topic.children, hg]
            exact ensureFind_snd_of_none ps c (sofar ++ [p]) h
        | none =>
            simp only [ensureFind, Topic.children, hg]
            exact ensureFind_new_snd ps _ (sofar ++ [p])

/-- Updating the node at an existing path, then descending the same path,
finds the updated node. -/
theorem nodeAt_updateAt : ∀ (parts : List Str) (t n : Topic)
    (f : Topic → Topic), nodeAt t parts = some n →
    nodeAt (updateAt t parts f) parts = some (f n)
  | [], t, n, f, h => by
      simp only [nodeAt, Option.some.injEq] at h
      simp [updateAt, nodeAt, h]
  | p :: ps, t, n, f, h => by
      cases t with
      | mk nm v m cs ss =>
        simp only [nodeAt, Topic.children] at h
        cases hg : childGet cs p with
        | some c =>
            rw [hg] at h
            simp only [updateAt, Topic.children, hg, nodeAt]
            rw [childGet_childSet_self _ hg]
            exact nodeAt_updateAt ps c n f h
        | none => rw [hg] at h; exact absurd h (by simp)

/-- Membership in the notifications of a value-publish walk. -/
theorem mem_publishEvents {levels : List (List (Nat × Bool))} {name : Str}
    {x : Val} {r : Option Bool} {src : Option Nat} {ev : Event} :
    ev ∈ publishEvents levels name x r src ↔
      ∃ subs ∈ levels, ∃ s ∈ subs, ¬ some s.1 = src ∧
        ev = ⟨s.1, name, x, r⟩ := by
  simp only [publishEvents, List.mem_flatMap]
  constructor
  · rintro ⟨subs, hs, s, hmem, hev⟩
    by_cases hc : some s.1 = src
    · simp [hc] at hev
    · rw [if_neg hc] at hev
      simp only [List.mem_singleton] at hev
      exact ⟨subs, hs, s, hmem, hc, hev⟩
  · rintro ⟨subs, hs, s, hmem, hc, rfl⟩
    exact ⟨subs, hs, s, hmem, by simp [hc]⟩

/-- Membership in the notifications of a `forward` walk. -/
theorem mem_forwardEvents {levels : List (List (Nat × Bool))} {topic : Str}
    {x : Val} {r : Option Bool} {src : Option Nat} {ev : Event} :
    ev ∈ forwardEvents levels topic x r src ↔
      ∃ subs ∈ levels, ∃ s ∈ subs, ¬ (some s.1 = src ∨ s.2 = false) ∧
        ev = ⟨s.1, topic, x, r⟩ := by
  simp only [forwardEvents, List.mem_flatMap]
  constructor
  · rintro ⟨subs, hs, s, hmem, hev⟩
    by_cases hc : some s.1 = src ∨ s.2 = false
    · simp [hc] at hev
    · rw [if_neg hc] at hev
      simp only [List.mem_singleton] at hev
      exact ⟨subs, hs, s, hmem, hc, hev⟩
  · rintro ⟨subs, hs, s, hmem, hc, rfl⟩
    exact ⟨subs, hs, s, hmem, by simp [if_neg hc]⟩

/-- A value-publish walk never notifies the excluded `src_cbk`. -/
theorem publishEvents_ne_src {levels : List (List (Nat × Bool))} {name : Str}
    {x : Val} {r : Option Bool} {src : Option Nat} {ev : Event}
    (h : ev ∈ publishEvents levels name x r src) : ¬ some ev.cbk = src := by
  obtain ⟨subs, _, s, _, hc, rfl⟩ := mem_publishEvents.mp h
  exact hc

/-- A `forward` walk never notifies the excluded `src_cbk`. -/
theorem forwardEvents_ne_src {levels : List (List (Nat × Bool))} {topic : Str}
    {x : Val} {r : Option Bool} {src : Option Nat} {ev : Event}
    (h : ev ∈ forwardEvents levels topic x r src) : ¬ some ev.cbk = src := by
  obtain ⟨subs, _, s, _, hc, rfl⟩ := mem_forwardEvents.mp h
  exact fun he => hc (Or.inl he)

mutual

/-- `_meta_send_all` never notifies the excluded `src_cbk`. -/
theorem metaSendAll_ne_src : ∀ (anc : List (List (Nat × Bool)))
    (src : Option Nat) (t : Topic) (ev : Event),
    ev ∈ metaSendAll anc src t → ¬ some ev.cbk = src
  | anc, src, .mk n v m cs ss, ev => by
      intro h
      simp only [metaSendAll, List.mem_append] at h
      rcases h with h | h
      · split at h
        · simp at h
        · exact forwardEvents_ne_src h
      · exact metaSendAllChildren_ne_src _ _ _ _ h

/-- Children recursion of the previous lemma. -/
theorem metaSendAllChildren_ne_src : ∀ (anc : List (List (Nat × Bool)))
    (src : Option Nat) (l : List (Str × Topic)) (ev : Event),
    ev ∈ metaSendAllChildren anc src l → ¬ some ev.cbk = src
  | _, _, [], ev => by simp [metaSendAllChildren]
  | anc, src, (k, c) :: rest, ev => by
      intro h
      simp only [metaSendAllChildren, List.mem_append] at h
      rcases h with h | h
      · exact metaSendAll_ne_src _ _ _ _ h
      · exact metaSendAllChildren_ne_src _ _ _ _ h

end

/-- `_Topic.publish` at a path never notifies the excluded `src_cbk`. -/
theorem publishValueAt_ne_src {root : Topic} {parts : List Str} {x : Val}
    {retain : Option Bool} {src : Option Nat} {ev : Event}
    (h : ev ∈ (publishValueAt root parts x retain src).2) :
    ¬ some ev.cbk = src := by
  unfold publishValueAt at h
  split at h
  · simp at h
  · split at h
    · split at h
      · simp at h
      · exact publishEvents_ne_src h
    · exact publishEvents_ne_src h

/-- No branch of `PubSub.publish` delivers a notification to the excluded
`src_cbk` — neither at the originating node nor at any ancestor. -/
theorem publish_ne_src (e : PubSub) (topic : Str) (value : Val)
    (retain : Option Bool) (src : Option Nat) :
    ∀ ev ∈ (e.publish topic value retain src).evs, ¬ some ev.cbk = src := by
  intro ev h
  unfold PubSub.publish at h
  dsimp only at h
  split at h
  · simp at h
  · split at h
    · simp only [List.mem_append] at h
      rcases h with h | h
      · exact metaSendAll_ne_src _ _ _ _ h
      · exact forwardEvents_ne_src h
    · split at h
      · split at h
        · exact metaSendAll_ne_src _ _ _ _ h
        · exact forwardEvents_ne_src h
      · split at h
        · split at h
          · split at h
            · split at h
              · simp at h
              · exact forwardEvents_ne_src h
            · exact forwardEvents_ne_src h
          · exact forwardEvents_ne_src h
        · split at h
          · simp at h
          · exact publishValueAt_ne_src h

/-- The traffic a bridge relay republishes (excluding the far-side relay
`rOut`) never reaches `rOut`: the relay chain stops after one hop. -/
theorem relaySweep_no_echo (rIn rOut : Nat) (pfx : Str) :
    ∀ (evs : List Event) (eB : PubSub),
    ∀ ev ∈ (relaySweep eB rIn rOut pfx evs).2, ev.cbk ≠ rOut
  | [], eB => by simp [relaySweep]
  | ev0 :: rest, eB => by
      intro ev h
      unfold relaySweep at h
      split at h
      · simp only [List.mem_append] at h
        rcases h with h | h
        · intro hc
          exact publish_ne_src _ _ _ _ _ ev h (by rw [hc])
        · exact relaySweep_no_echo rIn rOut pfx rest _ ev h
      · exact relaySweep_no_echo rIn rOut pfx rest _ ev h

/-- A topic ending in `'/$'` ends in `'$'`. -/
theorem getLast_of_suffix_sd {topic : Str} (h : ['/', '$'] <:+ topic) :
    topic.getLast? = some '$' := by
  obtain ⟨pre, rfl⟩ := h
  rw [List.getLast?_append_of_ne_nil _ (by simp)]
  rfl

theorem stripTrail_append_dollar (l : Str) :
    stripTrail (l ++ ['$']) = stripTrail l := by
  simp [stripTrail, List.reverse_append, List.dropWhile_cons]

/-- The path `_topic_find` resolves for `topic[:-1]` equals the one it
resolves for `topic` when `topic` ends in `'$'` (the strip loop removes the
final character either way). -/
theorem resolvedParts_dropLast_dollar {topic : Str}
    (h : topic.getLast? = some '$') :
    resolvedParts topic.dropLast = resolvedParts topic := by
  have h2 : topic.dropLast ++ ['$'] = topic :=
    List.dropLast_append_getLast? '$' (Option.mem_def.mpr h)
  conv_rhs => rw [← h2]
  unfold resolvedParts
  rw [stripTrail_append_dollar]

/-- For an ordinary value topic — non-empty, not ending in `'$'` or `'?'` —
`PubSub.publish` is exactly: resolve with create, then `_Topic.publish` on
the resolved node. -/
theorem publish_ordinary (e : PubSub) (topic : Str) (x : Val)
    (retain : Option Bool) (src : Option Nat) (h0 : topic ≠ [])
    (h1 : topic.getLast? ≠ some '$') (h2 : topic.getLast? ≠ some '?') :
    e.publish topic x retain src =
      ⟨⟨e.nsp, (publishValueAt (ensureFind e.root [] (resolvedParts topic)).1
          (resolvedParts topic) x retain src).1⟩,
       (publishValueAt (ensureFind e.root [] (resolvedParts topic)).1
          (resolvedParts topic) x retain src).2, .none⟩ := by
  have hne1 : topic ≠ ['$'] := by rintro rfl; exact h1 rfl
  have hne2 : ¬ (['/', '$'] <:+ topic) := fun hs => h1 (getLast_of_suffix_sd hs)
  unfold PubSub.publish
  rw [if_neg h0, if_neg hne1, if_neg hne2, if_neg h1, if_neg h2]

theorem publishEvents_count_level (subs : List (Nat × Bool)) (name : Str)
    (x : Val) (r : Option Bool) (src : Option Nat) (c : Nat)
    (h : ¬ some c = src) :
    ((subs.flatMap fun s =>
        if some s.1 = src then ([] : List Event)
        else [⟨s.1, name, x, r⟩]).filter (fun ev => ev.cbk == c)).length =
      (subs.filter (fun s => s.1 == c)).length := by
  induction subs with
  | nil => rfl
  | cons s rest ih =>
      by_cases hs : some s.1 = src
      · have hsc : (s.1 == c) = false := by
          simp only [beq_eq_false_iff_ne, ne_eq]
          rintro rfl
          exact h hs
        simp [List.flatMap_cons, if_pos hs, List.filter_cons, hsc, ih]
      · by_cases hc : s.1 = c
        · subst hc
          simp [List.flatMap_cons, if_neg hs, List.filter_cons, ih]
        · have hsc : (s.1 == c) = false := by simp [hc]
          simp [List.flatMap_cons, if_neg hs, List.filter_cons, hsc, ih]

/-- When the excluded callback differs from `c`, a value-publish walk
notifies `c` exactly as many times as `c` occurs among the walk's
subscriptions. -/
theorem publishEvents_count (levels : List (List (Nat × Bool))) (name : Str)
    (x : Val) (r : Option Bool) (src : Option Nat) (c : Nat)
    (h : ¬ some c = src) :
    ((publishEvents levels name x r src).filter
        (fun ev => ev.cbk == c)).length = scount c levels := by
  induction levels with
  | nil => rfl
  | cons subs rest ih =>
      simp only [publishEvents, List.flatMap_cons, List.filter_append,
        List.length_append, scount, List.map_cons, List.sum_cons] at *
      rw [publishEvents_count_level subs name x r src c h, ih]

/-- `_Topic.publish` with a truthy retain and a stored value `==` to `x`:
dedup, no mutation, no notification. -/
theorem publishValueAt_retained_dedup {root n : Topic} {parts : List Str}
    {x : Val} (src : Option Nat) (hfind : nodeAt root parts = some n)
    (hd : pyEq n.value x = true) :
    publishValueAt root parts x (some true) src = (root, []) := by
  unfold publishValueAt
  rw [hfind]
  dsimp only
  rw [if_pos rfl, if_pos hd]

/-- `_Topic.publish` with a truthy retain and a different stored value:
store `x`, then notify the walk. -/
theorem publishValueAt_retained_store {root n : Topic} {parts : List Str}
    {x : Val} (src : Option Nat) (hfind : nodeAt root parts = some n)
    (hd : ¬ pyEq n.value x = true) :
    publishValueAt root parts x (some true) src =
      (updateAt root parts (Topic.setValue x),
       publishEvents (walkLevels (updateAt root parts (Topic.setValue x)) parts)
         n.name x (some true) src) := by
  unfold publishValueAt
  rw [hfind]
  dsimp only
  rw [if_pos rfl, if_neg hd]

/-- `_Topic.publish` with a falsy retain: clear the stored value to `None`,
then notify the walk with the transient value `x`. -/
theorem publishValueAt_not_retained {root n : Topic} {parts : List Str}
    {x : Val} {retain : Option Bool} (src : Option Nat)
    (hfind : nodeAt root parts = some n) (hr : retain ≠ some true) :
    publishValueAt root parts x retain src =
      (updateAt root parts (Topic.setValue Val.none),
       publishEvents
         (walkLevels (updateAt root parts (Topic.setValue Val.none)) parts)
         n.name x retain src) := by
  unfold publishValueAt
  rw [hfind]
  dsimp only
  rw [if_neg hr]

/-- C9: for every topic string ending in `'?'`, `publish` neither raises nor
mutates any state — the engine is returned unchanged, no node is created, no
value, metadata or subscriber list changes, and no subscriber is notified
(`PubSub.publish` lines 210-211, the reserved-query no-op). -/
theorem c9_query_topic_noop (e : PubSub) (topic : Str) (value : Val)
    (retain : Option Bool) (src : Option Nat) (h0 : topic ≠ [])
    (h1 : topic.getLast? = some '?') :
    e.publish topic value retain src = ⟨e, [], .none⟩ := by
  have hq : topic.getLast? ≠ some '$' := by rw [h1]; simp
  have hne1 : topic ≠ ['$'] := by rintro rfl; exact hq rfl
  have hne2 : ¬ (['/', '$'] <:+ topic) := fun hs => hq (getLast_of_suffix_sd hs)
  unfold PubSub.publish
  rw [if_neg h0, if_neg hne1, if_neg hne2, if_neg hq, if_pos h1]

/-- Witness for C9 at the concrete query topic `"a/b?"`. -/
theorem c9_query_topic_noop_witness :
    (PubSub.new "a".toList).publish "a/b?".toList (.int 5) (some true) .none =
      ⟨PubSub.new "a".toList, [], .none⟩ :=
  c9_query_topic_noop (PubSub.new "a".toList) "a/b?".toList (.int 5)
    (some true) .none (by decide) (by decide)

/-- C2 is violated by the code (code bug): `_Topic.subscribe` line 98 tests
`cbk not in self._subscribers`, but `_subscribers` holds `(callback, forward)`
tuples, which never compare equal to the callable, so a second `subscribe`
with the same callback appends a second entry and a single publish then
notifies that callback twice at the same node.  Evaluated at the failing
input: subscribing callback 7 twice on topic `"a"` yields the subscriber list
`[(7, False), (7, False)]`, and one publish delivers two notifications. -/
theorem c2_duplicate_subscribe_evaluation :
    (nodeAt ((((PubSub.new []).subscribe "a".toList (.fn 7) .none .none).eng.subscribe
        "a".toList (.fn 7) .none .none).eng).root ["a".toList] =
      some (.mk "a".toList .none .none [] [(7, false), (7, false)]))
    ∧ ((((PubSub.new []).subscribe "a".toList (.fn 7) .none .none).eng.subscribe
        "a".toList (.fn 7) .none .none).eng.publish "a".toList
        (.str "x".toList) .none .none).evs =
      [⟨7, "a".toList, .str "x".toList, .none⟩,
       ⟨7, "a".toList, .str "x".toList, .none⟩] :=
  ⟨rfl, rfl⟩

/-- C1 is violated by the code (code bug): in the per-topic metadata read
branch (`PubSub.publish` lines 202-204) the code tests and forwards
`t.value` — the retained value — instead of the stored metadata `t.meta`
(contrast the write branch on lines 205-207 and `_meta_send_all`, both of
which use the metadata).  Evaluated at the failing inputs, on an engine with
an empty prefix and a forward subscriber 1 at the root: after storing
metadata `"M"` for `"a"`, the node carries that metadata, yet the read
`publish("a$", None)` emits nothing; after additionally retaining the value
`"v"` on `"a"`, the same read forwards the value `"v"` as if it were the
metadata. -/
theorem c1_metadata_read_evaluation :
    (∃ n, nodeAt ((((PubSub.new []).subscribe [] (.fn 1) .none
        (some true)).eng.publish "a$".toList (.str "M".toList) .none .none).eng.root)
        ["a".toList] = some n ∧ n.meta = .str "M".toList ∧ n.value = .none)
    ∧ (((((PubSub.new []).subscribe [] (.fn 1) .none
        (some true)).eng.publish "a$".toList (.str "M".toList) .none .none).eng.publish
        "a$".toList .none .none .none).evs = [])
    ∧ ((((((PubSub.new []).subscribe [] (.fn 1) .none
        (some true)).eng.publish "a$".toList (.str "M".toList) .none .none).eng.publish
        "a".toList (.str "v".toList) (some true) .none).eng.publish
        "a$".toList .none .none .none).evs =
      [⟨1, "a$".toList, .str "v".toList, some true⟩]) :=
  ⟨⟨_, rfl, ⟨rfl, rfl⟩⟩, rfl, rfl⟩

/-- Counterexample to C6 as stated: after `publish("a", None, retain=True)`
on a fresh engine the full engine state is *equal* to that of an engine whose
topic `"a"` never retained a value (here: one that published a transient
`0`), so a deliberately retained null is not observably different from the
never-retained state — the dedup test `self._value == x` treats the initial
`None` as already holding the null. -/
theorem c6_counterexample :
    ((PubSub.new []).publish "a".toList .none (some true) .none).eng =
      ((PubSub.new []).publish "a".toList (.int 0) .none .none).eng := rfl

/-- Counterexample to C5 as stated: for the topic `T = "a$"` and value
`V = 42`, `publish(T, V, retain=True)` stores `42` as *metadata* of node
`"a"` (the `'$'` dispatch branch), and `get(T)` strips the `'$'` and returns
the node's retained value, which is absent — not `42`. -/
theorem c5_counterexample :
    ((PubSub.new []).publish "a$".toList (.int 42) (some true) .none).eng.get
      "a$".toList ≠ .ok (.int 42) := by
  intro h
  rw [show ((PubSub.new []).publish "a$".toList (.int 42) (some true)
      .none).eng.get "a$".toList = Except.ok Val.none from rfl] at h
  exact Val.noConfusion (Except.ok.inj h)

/-- Counterexample to C3 as stated: `subscribe` with a non-invocable callback
on the not-yet-existing topic `"a"` raises `ValueError`, but the node has
been created by the time the error is raised (`PubSub.subscribe` resolves
with `create=True` before `_Topic.subscribe` validates the callback), so the
tree is not left as it was. -/
theorem c3_counterexample :
    ((PubSub.new []).subscribe "a".toList (.obj .none) .none .none).err =
      some "subscribers must be callable".toList
    ∧ nodeAt ((PubSub.new []).subscribe "a".toList (.obj .none) .none
        .none).eng.root ["a".toList] = some (Topic.new "a".toList) :=
  ⟨rfl, rfl⟩

/-- C3 amended: failing engine operations are not atomic.  `subscribe` with a
non-invocable callback on a not-yet-existing topic raises after creating the
node, and `create` whose metadata carries a `default` together with a
`retain` spelling rejected by `_as_bool` raises after creating the node and
storing the metadata on it. -/
theorem c3_amended_not_atomic :
    (∀ (e : PubSub) (topic : Str) (v : Val),
      nodeAt e.root (resolvedParts topic) = .none →
      (e.subscribe topic (.obj v) .none .none).err.isSome = true ∧
      (nodeAt (e.subscribe topic (.obj v) .none .none).eng.root
        (resolvedParts topic)).isSome = true)
    ∧ (∀ (e : PubSub) (topic : Str) (d rv : Val) (msg : Str),
      nodeAt e.root (resolvedParts topic) = .none →
      as_bool rv = .error msg →
      (e.create topic (.dict [("default".toList, d), ("retain".toList, rv)])
        .none .none .none).err.isSome = true ∧
      ∃ n, nodeAt (e.create topic
          (.dict [("default".toList, d), ("retain".toList, rv)])
          .none .none .none).eng.root (resolvedParts topic) = some n ∧
        n.meta = .dict [("default".toList, d), ("retain".toList, rv)]) := by
  constructor
  · intro e topic v _
    unfold PubSub.subscribe
    refine ⟨rfl, ?_⟩
    rw [nodeAt_ensureFind]
    rfl
  · intro e topic d rv msg hnone hbool
    have hfind := nodeAt_ensureFind (resolvedParts topic) e.root []
    have hkey : dictHasKey [("default".toList, d), ("retain".toList, rv)]
        "default".toList = true := by simp [dictHasKey, dictGet]
    have hget : dictGet [("default".toList, d), ("retain".toList, rv)]
        "retain".toList = some rv := by simp [dictGet]
    unfold PubSub.create
    simp only [hnone, hkey, hget, Option.getD, if_true, hbool]
    refine ⟨rfl, ?_⟩
    refine ⟨Topic.setMeta
      (.dict [("default".toList, d), ("retain".toList, rv)])
      (ensureFind e.root [] (resolvedParts topic)).2, ?_, by simp⟩
    exact nodeAt_updateAt _ _ _ _ hfind

/-- Witness for C3's amended claim: both non-atomic failures evaluated at
concrete inputs. -/
theorem c3_amended_not_atomic_witness :
    (((PubSub.new []).subscribe "w".toList (.obj (.int 3)) .none
        .none).err.isSome = true ∧
      (nodeAt ((PubSub.new []).subscribe "w".toList (.obj (.int 3)) .none
        .none).eng.root (resolvedParts "w".toList)).isSome = true)
    ∧ (((PubSub.new []).create "w".toList
        (.dict [("default".toList, .int 1),
                ("retain".toList, .str "maybe".toList)])
        .none .none .none).err.isSome = true ∧
      ∃ n, nodeAt ((PubSub.new []).create "w".toList
          (.dict [("default".toList, .int 1),
                  ("retain".toList, .str "maybe".toList)])
          .none .none .none).eng.root (resolvedParts "w".toList) = some n ∧
        n.meta = .dict [("default".toList, .int 1),
                        ("retain".toList, .str "maybe".toList)]) :=
  ⟨c3_amended_not_atomic.1 (PubSub.new []) "w".toList (.int 3) rfl,
   c3_amended_not_atomic.2 (PubSub.new []) "w".toList (.int 1)
     (.str "maybe".toList) "Invalid boolean value".toList rfl rfl⟩

/-- C5 amended: for every non-empty topic `T` that does not end in `'$'` or
`'?'` (metadata and query topics are dispatched to different protocols and
never store the published value where `get` reads it) and every value `V`,
`publish(T, V, retain=True)` followed by `get(T)` returns a value that
compares Python-`==` to `V` — the value itself when it was stored, or the
previously retained Python-equal value when the dedup test
`self._value == x` fired (Python equates `0` with `False` and `1` with
`True`, so the stored value can be a `==`-equal variant of `V`). -/
theorem c5_amended_publish_retain_get (e : PubSub) (topic : Str) (x : Val)
    (src : Option Nat) (h0 : topic ≠ []) (h1 : topic.getLast? ≠ some '$')
    (h2 : topic.getLast? ≠ some '?') :
    ∃ v, (e.publish topic x (some true) src).eng.get topic = .ok v ∧
      pyEq v x = true := by
  rw [publish_ordinary e topic x (some true) src h0 h1 h2]
  have hfind := nodeAt_ensureFind (resolvedParts topic) e.root []
  by_cases hd : pyEq (ensureFind e.root [] (resolvedParts topic)).2.value x
      = true
  · rw [publishValueAt_retained_dedup src hfind hd]
    refine ⟨(ensureFind e.root [] (resolvedParts topic)).2.value, ?_, hd⟩
    unfold PubSub.get
    dsimp only
    rw [hfind]
  · rw [publishValueAt_retained_store src hfind hd]
    refine ⟨x, ?_, pyEq_refl x⟩
    unfold PubSub.get
    dsimp only
    rw [nodeAt_updateAt _ _ _ _ hfind]
    simp

/-- Witness for C5's amended claim at `T = "a/b"`, `V = "hello"`. -/
theorem c5_amended_publish_retain_get_witness :
    ∃ v, ((PubSub.new []).publish "a/b".toList (.str "hello".toList)
        (some true) .none).eng.get "a/b".toList = .ok v ∧
      pyEq v (.str "hello".toList) = true :=
  c5_amended_publish_retain_get (PubSub.new []) "a/b".toList
    (.str "hello".toList) .none (by decide) (by decide) (by decide)

/-- C6 amended: the stored state does *not* distinguish "never retained" from
"deliberately retained null": `None` is the single absent marker, a retained
publish of `None` dedups against it (or overwrites the value with `None`),
and `get` afterwards reports the absent marker either way (see the
counterexample for literal state equality with a never-retained topic). -/
theorem c6_amended_retained_none_is_absent (e : PubSub) (topic : Str)
    (src : Option Nat) (h0 : topic ≠ []) (h1 : topic.getLast? ≠ some '$')
    (h2 : topic.getLast? ≠ some '?') :
    (e.publish topic .none (some true) src).err = .none ∧
    (e.publish topic .none (some true) src).eng.get topic = .ok .none := by
  rw [publish_ordinary e topic .none (some true) src h0 h1 h2]
  have hfind := nodeAt_ensureFind (resolvedParts topic) e.root []
  by_cases hd : pyEq (ensureFind e.root [] (resolvedParts topic)).2.value .none
      = true
  · rw [publishValueAt_retained_dedup src hfind hd]
    refine ⟨rfl, ?_⟩
    unfold PubSub.get
    dsimp only
    rw [hfind]
    dsimp only
    rw [(pyEq_none_iff _).mp hd]
  · rw [publishValueAt_retained_store src hfind hd]
    refine ⟨rfl, ?_⟩
    unfold PubSub.get
    dsimp only
    rw [nodeAt_updateAt _ _ _ _ hfind]
    simp

/-- Witness for C6's amended claim at topic `"a"`. -/
theorem c6_amended_retained_none_is_absent_witness :
    ((PubSub.new []).publish "a".toList .none (some true) .none).err = .none ∧
    ((PubSub.new []).publish "a".toList .none (some true) .none).eng.get
      "a".toList = .ok .none :=
  c6_amended_retained_none_is_absent (PubSub.new []) "a".toList .none
    (by decide) (by decide) (by decide)

/-- C4: publishing an ordinary value topic with `retain=False` raises no
error, every delivered notification carries the transient value `x` (with
`retain=False` and never to the excluded source), every subscriber in the
walk of the resulting tree other than the excluded source receives such a
notification, and `get` on that topic afterwards returns the absent marker
`None` — never the transiently published value (the code stores `None`
before walking the subscribers, and hands the subscribers the transient `x`
directly). -/
theorem c4_transient_publish_clears (e : PubSub) (topic : Str) (x : Val)
    (src : Option Nat) (h0 : topic ≠ []) (h1 : topic.getLast? ≠ some '$')
    (h2 : topic.getLast? ≠ some '?') :
    (e.publish topic x (some false) src).err = .none ∧
    (∀ ev ∈ (e.publish topic x (some false) src).evs,
      ev.value = x ∧ ev.retain = some false ∧ ¬ some ev.cbk = src) ∧
    (∀ s ∈ ((walkLevels (e.publish topic x (some false) src).eng.root
        (resolvedParts topic)).flatMap id), ¬ some s.1 = src →
      ∃ ev ∈ (e.publish topic x (some false) src).evs,
        ev.cbk = s.1 ∧ ev.value = x) ∧
    (e.publish topic x (some false) src).eng.get topic = .ok .none := by
  rw [publish_ordinary e topic x (some false) src h0 h1 h2]
  have hfind := nodeAt_ensureFind (resolvedParts topic) e.root []
  rw [publishValueAt_not_retained src hfind (by decide)]
  dsimp only
  refine ⟨rfl, ?_, ?_, ?_⟩
  · intro ev hev
    obtain ⟨subs, _, s, _, hc, rfl⟩ := mem_publishEvents.mp hev
    exact ⟨rfl, rfl, hc⟩
  · intro s hs hsrc
    obtain ⟨subs, hsubs, hmem⟩ := List.mem_flatMap.mp hs
    refine ⟨⟨s.1, (ensureFind e.root [] (resolvedParts topic)).2.name, x,
      some false⟩, ?_, rfl, rfl⟩
    exact mem_publishEvents.mpr ⟨subs, hsubs, s, hmem, hsrc, rfl⟩
  · unfold PubSub.get
    dsimp only
    rw [nodeAt_updateAt _ _ _ _ hfind]
    simp

/-- Witness for C4 at topic `"a/b"`, value `7`, no exclusion. -/
theorem c4_transient_publish_clears_witness :
    ((PubSub.new []).publish "a/b".toList (.int 7) (some false) .none).err
      = .none ∧
    ((PubSub.new []).publish "a/b".toList (.int 7) (some false)
      .none).eng.get "a/b".toList = .ok .none :=
  ⟨(c4_transient_publish_clears (PubSub.new []) "a/b".toList (.int 7) .none
      (by decide) (by decide) (by decide)).1,
   (c4_transient_publish_clears (PubSub.new []) "a/b".toList (.int 7) .none
      (by decide) (by decide) (by decide)).2.2.2⟩

/-- The `"foo$"` metadata *write* branch of `PubSub.publish` (lines 205-207),
taken when the topic ends in `'$'` (but is neither `"$"` nor a `"/$"` subtree
request), starts with the engine's prefix, and the value is not `None`:
store the value as the node's metadata and forward it up the walk. -/
theorem publish_meta_set (e : PubSub) (topic : Str) (value : Val)
    (retain : Option Bool) (src : Option Nat) (hL : topic.getLast? = some '$')
    (hne : topic ≠ ['$']) (hsd : ¬ (['/', '$'] <:+ topic))
    (hpf : e.nsp <+: topic) (hv : value.isNone = false) :
    e.publish topic value retain src =
      ⟨⟨e.nsp, updateAt (ensureFind e.root [] (resolvedParts topic)).1
          (resolvedParts topic) (Topic.setMeta value)⟩,
       forwardEvents (walkLevels (updateAt (ensureFind e.root []
           (resolvedParts topic)).1 (resolvedParts topic)
           (Topic.setMeta value)) (resolvedParts topic)) topic value
         (some true) src, .none⟩ := by
  have h0 : topic ≠ [] := by rintro rfl; simp at hL
  unfold PubSub.publish
  rw [if_neg h0, if_neg hne, if_neg hsd, if_pos hL]
  dsimp only
  rw [resolvedParts_dropLast_dollar hL, if_pos hpf, hv,
    if_neg Bool.false_ne_true]

/-- C10: whether a published metadata topic is "inside this Engine's own
namespace" is decided by the raw string-prefix test
`topic.startswith(self._topic_prefix)` with no segment-boundary check
(lines 194 and 201).  For the per-topic metadata write: the resolved node's
metadata becomes the published value exactly when the topic string starts
with the prefix, and is left as it was (absent when freshly created)
otherwise; hence prefix `"hello"` also claims `"helloworld$"` (third
conjunct, evaluated concretely), and the empty prefix claims every topic
(second conjunct: `""` is a prefix of every string). -/
theorem c10_namespace_is_raw_string_test :
    (∀ (e : PubSub) (topic : Str) (value : Val) (retain : Option Bool)
        (src : Option Nat), topic.getLast? = some '$' → topic ≠ ['$'] →
        ¬ (['/', '$'] <:+ topic) → value.isNone = false →
        (e.publish topic value retain src).err = .none ∧
        ∃ n, nodeAt (e.publish topic value retain src).eng.root
            (resolvedParts topic) = some n ∧
          n.meta = (if e.nsp <+: topic then value else
            match nodeAt e.root (resolvedParts topic) with
            | some m => m.meta
            | .none => Val.none))
    ∧ (∀ t : Str, ([] : Str) <+: t)
    ∧ (∃ n, nodeAt ((PubSub.new "hello".toList).publish
          "helloworld$".toList (.str "m".toList) .none .none).eng.root
          (resolvedParts "helloworld$".toList) = some n ∧
        n.meta = .str "m".toList) := by
  refine ⟨?_, fun t => List.nil_prefix, ⟨_, rfl, rfl⟩⟩
  intro e topic value retain src hL hne hsd hv
  have h0 : topic ≠ [] := by rintro rfl; simp at hL
  have hfind := nodeAt_ensureFind (resolvedParts topic) e.root []
  by_cases hpf : e.nsp <+: topic
  · rw [publish_meta_set e topic value retain src hL hne hsd hpf hv]
    refine ⟨rfl, ?_⟩
    rw [if_pos hpf]
    exact ⟨_, nodeAt_updateAt _ _ _ _ hfind, by simp⟩
  · unfold PubSub.publish
    rw [if_neg h0, if_neg hne, if_neg hsd, if_pos hL]
    dsimp only
    rw [resolvedParts_dropLast_dollar hL, if_neg hpf]
    refine ⟨rfl, ?_⟩
    rw [if_neg hpf]
    cases hn : nodeAt e.root (resolvedParts topic) with
    | some m =>
        have h2 := ensureFind_snd_of_nodeAt (resolvedParts topic) e.root m []
          hn
        exact ⟨_, hfind, by rw [h2]⟩
    | none =>
        obtain ⟨nm, hnm⟩ := ensureFind_snd_of_none (resolvedParts topic)
          e.root [] hn
        exact ⟨_, hfind, by rw [hnm]; rfl⟩

/-- Witness for C10's universally quantified conjunct: prefix `"hello"`
claims the boundary-crossing topic `"helloworld$"`. -/
theorem c10_namespace_is_raw_string_test_witness :
    ((PubSub.new "hello".toList).publish "helloworld$".toList
        (.str "m".toList) .none .none).err = .none ∧
    ∃ n, nodeAt ((PubSub.new "hello".toList).publish "helloworld$".toList
        (.str "m".toList) .none .none).eng.root
        (resolvedParts "helloworld$".toList) = some n ∧
      n.meta = (if (PubSub.new "hello".toList).nsp <+: "helloworld$".toList
        then .str "m".toList else
        match nodeAt (PubSub.new "hello".toList).root
            (resolvedParts "helloworld$".toList) with
        | some m => m.meta
        | .none => Val.none) :=
  c10_namespace_is_raw_string_test.1 (PubSub.new "hello".toList)
    "helloworld$".toList (.str "m".toList) .none .none (by decide)
    (by decide) (by decide) (by decide)

/-- C7: the notification walks enforce mutual exclusion of the event source,
and that alone yields loop-free bridging.  First conjunct: no branch of
`publish` (value publish, metadata forward, broadcast) ever notifies the
excluded `src_cbk`, at the originating node or at any ancestor.  Second
conjunct: a relay callback subscribed exactly once along the walk (and not
itself excluded) receives a non-retained publish exactly once — exactly-once
forwarding per direction per publish.  Third conjunct: the traffic a bridge
relay republishes into the peer engine with the far-side relay excluded
never reaches that far-side relay, so the republish triggers no echo and the
ping-pong stops after one hop. -/
theorem c7_source_exclusion_and_loop_suppression :
    (∀ (e : PubSub) (topic : Str) (value : Val) (retain : Option Bool)
        (src : Option Nat), ∀ ev ∈ (e.publish topic value retain src).evs,
        ¬ some ev.cbk = src)
    ∧ (∀ (eA : PubSub) (topic : Str) (value : Val) (rIn : Nat)
        (src : Option Nat), ¬ some rIn = src → topic ≠ [] →
        topic.getLast? ≠ some '$' → topic.getLast? ≠ some '?' →
        scount rIn (walkLevels (eA.publish topic value .none src).eng.root
          (resolvedParts topic)) = 1 →
        ((eA.publish topic value .none src).evs.filter
          (fun ev => ev.cbk == rIn)).length = 1)
    ∧ (∀ (eB : PubSub) (rIn rOut : Nat) (pfx : Str) (evs : List Event),
        ∀ ev ∈ (relaySweep eB rIn rOut pfx evs).2, ev.cbk ≠ rOut) := by
  refine ⟨publish_ne_src, ?_,
    fun eB rIn rOut pfx evs => relaySweep_no_echo rIn rOut pfx evs eB⟩
  intro eA topic value rIn src hsrc h0 h1 h2 hcount
  rw [publish_ordinary eA topic value .none src h0 h1 h2] at hcount ⊢
  have hfind := nodeAt_ensureFind (resolvedParts topic) eA.root []
  rw [publishValueAt_not_retained src hfind (by decide)] at hcount ⊢
  dsimp only at hcount ⊢
  rw [publishEvents_count _ _ _ _ _ _ hsrc]
  exact hcount

/-- Witness for C7: on a fresh engine with relay 3 subscribed once at the
root, a publish to `"a"` reaches the relay exactly once, and a relayed
republish excluding callback 9 delivers nothing to 9. -/
theorem c7_source_exclusion_and_loop_suppression_witness :
    ((((PubSub.new []).subscribe [] (.fn 3) .none (some true)).eng.publish
        "a".toList (.int 1) .none .none).evs.filter
        (fun ev => ev.cbk == 3)).length = 1 ∧
    (∀ ev ∈ (relaySweep (PubSub.new []) 3 9 []
        (((PubSub.new []).subscribe [] (.fn 3) .none (some true)).eng.publish
          "a".toList (.int 1) .none .none).evs).2, ev.cbk ≠ 9) :=
  ⟨c7_source_exclusion_and_loop_suppression.2.1
      (((PubSub.new []).subscribe [] (.fn 3) .none (some true)).eng)
      "a".toList (.int 1) 3 .none (by decide) (by decide) (by decide)
      (by decide) (by decide),
   c7_source_exclusion_and_loop_suppression.2.2 (PubSub.new []) 3 9 [] _⟩

/-- C8: on every Engine whose namespace prefix is a string prefix of
`"a/b"` (including the empty prefix), after `meta("a/b", M)` (with an actual
metadata value, not `None`, which would be a read), subscribing callback 0
at the root with `forward=True` and publishing `("$", None)` delivers
`("a/b$", M)` (as a non-retained forward) to that callback, followed by the
literal broadcast event `("$", None)`. -/
theorem c8_global_metadata_broadcast (p : Str) (M : Val)
    (hp : p <+: "a/b".toList) (hM : M.isNone = false) :
    ((((PubSub.new p).meta "a/b".toList M).eng.subscribe [] (.fn 0) .none
        (some true)).eng.publish "$".toList .none .none .none).evs =
      [⟨0, "a/b$".toList, M, some false⟩, ⟨0, "$".toList, .none, .none⟩] := by
  obtain ⟨k, hk, rfl⟩ : ∃ k, k ≤ 3 ∧ p = List.take k "a/b".toList :=
    ⟨p.length, by simpa using hp.length_le, List.prefix_iff_eq_take.mp hp⟩
  interval_cases k <;> cases M <;>
    first
      | exact Bool.noConfusion hM
      | simp [PubSub.meta, PubSub.publish, PubSub.subscribe, PubSub.new,
          metaSendAll, metaSendAllChildren, forwardEvents, publishEvents,
          publishValueAt, ensureFind, nodeAt, childGet, childSet, joinStr,
          resolvedParts, stripTrail, splitSlash, updateAt, chainDown,
          walkLevels, ancLevels, subscribeLocal, cbkEqSubEntry, replayEvents,
          replayEventsChildren, Topic.new, Topic.name, Topic.value,
          Topic.meta, Topic.children, Topic.subs, Topic.setValue,
          Topic.setMeta, Topic.setSubs, Val.isNone, List.suffix_cons_iff,
          List.cons_prefix_cons, List.getLast?, List.take]

/-- Witness for C8 at the prefix `"a"` and a concrete metadata dict. -/
theorem c8_global_metadata_broadcast_witness :
    ((((PubSub.new "a".toList).meta "a/b".toList
        (.dict [("dtype".toList, .str "u32".toList)])).eng.subscribe []
        (.fn 0) .none (some true)).eng.publish "$".toList .none .none
        .none).evs =
      [⟨0, "a/b$".toList, .dict [("dtype".toList, .str "u32".toList)],
        some false⟩, ⟨0, "$".toList, .none, .none⟩] :=
  c8_global_metadata_broadcast "a".toList
    (.dict [("dtype".toList, .str "u32".toList)]) (by decide) (by decide)

end Fbp
